import Mathlib

/-!
Verification of the ABIDE merged-dataset builder (code/build_abide_both.py).

The Python source is shallowly embedded: every definition below is a direct
translation of a function (or of the pure core of a function) of the source
file.  External effects (git-annex invocations, file reads and writes) are
made explicit, either as oracle inputs recorded in an environment structure
or as an emitted list of effect markers.  Python floats are modelled as
rationals, Python strings either as Lean strings (where only equality is
needed) or as lists of natural-number code points (where order or character
structure matters), and Python dicts as insertion-ordered association lists
with unique keys, with lookup, assignment and update translated from the
dict semantics.
-/

namespace AbideBuild

/-! ## Python dict model

Python dicts are insertion ordered with unique keys.  An assignment
`d[k] = v` replaces the value in place when the key exists and appends the
pair otherwise; `d.update(e)` performs that assignment for every pair of
`e` in order; `d.setdefault(k, v)` appends only when the key is absent. -/

/-- Result of looking a key up in an association-list dict, first match. -/
def dlookup {α : Type} : List (String × α) → String → Option α
  | [], _ => none
  | p :: rest, k => if p.1 = k then some p.2 else dlookup rest k

/-- Python dict assignment: replace in place if the key exists, else append. -/
def dinsert {α : Type} : List (String × α) → String → α → List (String × α)
  | [], k, v => [(k, v)]
  | p :: rest, k, v => if p.1 = k then (k, v) :: rest else p :: dinsert rest k v

/-- Python dict.update: assign every pair of the second dict in order. -/
def dupdate {α : Type} (a b : List (String × α)) : List (String × α) :=
  b.foldl (fun acc p => dinsert acc p.1 p.2) a

/-- Python dict.setdefault: append the pair only when the key is absent. -/
def dsetdefault {α : Type} (a : List (String × α)) (k : String) (v : α) :
    List (String × α) :=
  if (dlookup a k).isSome then a else a ++ [(k, v)]

/-- Membership test, mirroring the Python expression `k in d`. -/
def hasKey {α : Type} (a : List (String × α)) (k : String) : Bool :=
  (dlookup a k).isSome

theorem dlookup_dinsert {α : Type} (a : List (String × α)) (k k' : String)
    (v : α) :
    dlookup (dinsert a k v) k' = if k' = k then some v else dlookup a k' := by
  induction a with
  | nil =>
    by_cases h : k' = k
    · simp [dinsert, dlookup, h]
    · have h1 : ¬ k = k' := fun hh => h hh.symm
      simp [dinsert, dlookup, h, h1]
  | cons p rest ih =>
    by_cases hp : p.1 = k
    · by_cases h : k' = k
      · simp [dinsert, dlookup, hp, h]
      · have h1 : ¬ k = k' := fun hh => h hh.symm
        simp [dinsert, dlookup, hp, h, h1]
    · by_cases hq : p.1 = k'
      · have h1 : ¬ k' = k := fun hh => hp (hq.trans hh)
        simp [dinsert, dlookup, hp, hq, h1]
      · simp [dinsert, dlookup, hp, hq, ih]

theorem dlookup_eq_none_of_not_mem_keys {α : Type} (a : List (String × α))
    (k : String) (h : k ∉ a.map Prod.fst) : dlookup a k = none := by
  induction a with
  | nil => rfl
  | cons p rest ih =>
    simp only [List.map_cons, List.mem_cons] at h
    push_neg at h
    have h1 : ¬ p.1 = k := fun hh => h.1 hh.symm
    simp [dlookup, h1, ih h.2]

/-- Lookup after a dict.update: a key bound in the second dict takes its
value from there, any other key keeps its binding from the first dict
(requires the second dict to have unique keys, as Python dicts do). -/
theorem dlookup_dupdate {α : Type} (a b : List (String × α)) (k : String)
    (hb : (b.map Prod.fst).Nodup) :
    dlookup (dupdate a b) k = (dlookup b k).or (dlookup a k) := by
  induction b generalizing a with
  | nil => simp [dupdate, dlookup]
  | cons p rest ih =>
    simp only [List.map_cons, List.nodup_cons] at hb
    have step : dupdate a (p :: rest) = dupdate (dinsert a p.1 p.2) rest := rfl
    rw [step, ih _ hb.2, dlookup_dinsert]
    by_cases h : k = p.1
    · have hrest : dlookup rest k = none :=
        dlookup_eq_none_of_not_mem_keys rest k (by rw [h]; exact hb.1)
      rw [h] at hrest
      simp [dlookup, h, hrest]
    · have h1 : ¬ p.1 = k := fun hh => h hh.symm
      simp [dlookup, h, h1]

/-! ## JSON values (the subset the sidecars use) -/

/-- JSON scalar values as they appear in BOLD sidecars. -/
inductive JVal where
  | num (q : ℚ)
  | str (s : String)
  | boolean (b : Bool)
  | null
  deriving DecidableEq

/-- Association-list model of a JSON object / Python dict. -/
abbrev JObj := List (String × JVal)

/-- Python truthiness of a JSON scalar (used by the `or` in line 399 of the
source: `src_meta.get("RepetitionTime") or template_meta.get("RepetitionTime")`). -/
def pyTruthy : JVal → Bool
  | .num q => q ≠ 0
  | .str s => s ≠ ""
  | .boolean b => b
  | .null => false

/-- Python `x or y` where both operands are dict lookups (Python `None`
is falsy, so a missing key falls through to the second operand). -/
def pyOr (a b : Option JVal) : Option JVal :=
  match a with
  | some v => if pyTruthy v then some v else b
  | none => b

/-- Guard `isinstance(rt, (int, float)) and rt > 0` of lines 400-401,
returning the accepted repetition time.  Python `bool` is a subclass of
`int`, so a JSON `true` (numeric value 1) passes the guard as well. -/
def rtPos : Option JVal → Option ℚ
  | some (.num q) => if 0 < q then some q else none
  | some (.boolean b) => if b then some 1 else none
  | _ => none

/-- Python `round(x, 6)` on the extracted repetition time (line 421):
round to six decimal places, ties to even. -/
def round6 (q : ℚ) : ℚ :=
  let scaled : ℚ := q * 1000000
  let f : ℤ := ⌊scaled⌋
  let r : ℚ := scaled - f
  let n : ℤ :=
    if r < 1 / 2 then f
    else if 1 / 2 < r then f + 1
    else if f % 2 = 0 then f else f + 1
  (n : ℚ) / 1000000

/-! ## ensure_bold_sidecar (lines 313-430)

The function's interaction with the filesystem and git-annex is isolated
into an environment of oracle values: whether the destination sidecar
exists and what its bytes parse to, what each site-level template loads
to (already folded through the best-effort empty-dict fallback of
load_site_template_json), whether the per-file source sidecar is tracked
and what it parses to, and what nifti_tr_seconds would return on the
source BOLD file (none models the warned-and-swallowed exception of
lines 413-414).  The task and acquisition labels of lines 343-344 are
inputs as well.  Effects are returned as an ordered list of markers, and
dry-run mode is not modelled: the embedding follows the real execution
path. -/

/-- Outcome of `json.loads` on an existing file: the read or parse may
raise (caught at line 332), or produce a non-dict value, or a dict. -/
inductive ParseOutcome where
  | parseError
  | nonObject
  | obj (o : JObj)
  deriving DecidableEq

/-- Lines 330-333: `existing` after the try/except, as a dict when the
subsequent `isinstance(existing, dict)` test passes. -/
def existingDict : ParseOutcome → Option JObj
  | .parseError => some []
  | .nonObject => none
  | .obj o => some o

/-- External accesses ensure_bold_sidecar can perform. -/
inductive SideEffect where
  | loadTemplate (name : String)
  | getSrcJson
  | readBoldHeader
  deriving DecidableEq

/-- Terminal state of one ensure_bold_sidecar call: early return at line
335 (the existing destination sidecar is left untouched), or a write of
the resolved object at line 430. -/
inductive BoldOutcome where
  | skipped
  | written (meta : JObj)
  deriving DecidableEq

/-- Flags and filename-derived labels of one ensure_bold_sidecar call. -/
structure BoldCfg where
  overwrite : Bool
  ensureTr : Bool
  task : Option String
  acq : Option String

/-- Oracle values for the external world seen by one call. -/
structure BoldEnv where
  destExists : Bool
  destContent : ParseOutcome
  coarseT : JObj
  finerT : JObj
  acqOnlyT : JObj
  srcTracked : Bool
  srcContent : ParseOutcome
  headerTr : Option ℚ

/-- Lines 329-335: the destination sidecar exists, overwrite is off, and
the existing content (an empty dict when unreadable) is a dict that either
is not required to carry RepetitionTime or already carries it. -/
def skipResolution (cfg : BoldCfg) (env : BoldEnv) : Bool :=
  env.destExists && !cfg.overwrite &&
    (match existingDict env.destContent with
     | some ex => !cfg.ensureTr || hasKey ex "RepetitionTime"
     | none => false)

/-- Lines 346-380: the BIDS-inheritance template layering.  The task-level
template is merged first, then the finer task+acq template; with no task
label but an acq label, only the acq-level fallback template is merged. -/
def templateLoad (cfg : BoldCfg) (env : BoldEnv) : List SideEffect × JObj :=
  match cfg.task, cfg.acq with
  | some t, some a =>
    ([.loadTemplate ("task-" ++ t ++ "_bold.json"),
      .loadTemplate ("task-" ++ t ++ "_acq-" ++ a ++ "_bold.json")],
     dupdate (dupdate [] env.coarseT) env.finerT)
  | some t, none =>
    ([.loadTemplate ("task-" ++ t ++ "_bold.json")],
     dupdate [] env.coarseT)
  | none, some a =>
    ([.loadTemplate ("acq-" ++ a ++ "_bold.json")],
     dupdate [] env.acqOnlyT)
  | none, none => ([], [])

/-- Lines 382-394: fetch the per-file source sidecar when tracked; any
parse failure or non-dict payload falls back to the empty dict. -/
def srcLoad (env : BoldEnv) : List SideEffect × JObj :=
  if env.srcTracked then
    ([.getSrcJson],
     match env.srcContent with
     | .obj o => o
     | _ => [])
  else ([], [])

/-- Lines 396-401: prefer an existing positive numeric RepetitionTime from
the source sidecar, falling back (by Python `or`) to the templates, and
only when overwrite was not requested. -/
def trResolve (cfg : BoldCfg) (tplMeta srcMeta : JObj) : Option ℚ :=
  if cfg.overwrite = false then
    rtPos (pyOr (dlookup srcMeta "RepetitionTime")
                (dlookup tplMeta "RepetitionTime"))
  else none

/-- Lines 418-423: the final merged object — template fields updated by
per-file fields, then the derived RepetitionTime (rounded to six decimal
places) when determined, then TaskName filled from the parsed task label
only when absent. -/
def resolveMeta (tplMeta srcMeta : JObj) (tr : Option ℚ)
    (task : Option String) : JObj :=
  let meta0 : JObj := dupdate tplMeta srcMeta
  let meta1 : JObj :=
    match tr with
    | some q => dinsert meta0 "RepetitionTime" (.num (round6 q))
    | none => meta0
  match task with
  | some t => if hasKey meta1 "TaskName" then meta1
              else dinsert meta1 "TaskName" (.str t)
  | none => meta1

/-- Shallow embedding of ensure_bold_sidecar (lines 313-430), returning
the ordered external accesses plus the terminal outcome. -/
def ensure_bold_sidecar (cfg : BoldCfg) (env : BoldEnv) :
    List SideEffect × BoldOutcome :=
  if skipResolution cfg env then
    ([], .skipped)
  else
    let tpl := templateLoad cfg env
    let src := srcLoad env
    let tr0 := trResolve cfg tpl.2 src.2
    let hdr : List SideEffect × Option ℚ :=
      if tr0 = none ∧ cfg.ensureTr then ([.readBoldHeader], env.headerTr)
      else ([], tr0)
    (tpl.1 ++ src.1 ++ hdr.1, .written (resolveMeta tpl.2 src.2 hdr.2 cfg.task))

/-- Helper: the call skips exactly when the skip test of lines 329-335
passes; on the resolution path the outcome is always a write. -/
theorem outcome_skipped_iff (cfg : BoldCfg) (env : BoldEnv) :
    (ensure_bold_sidecar cfg env).2 = .skipped ↔
      skipResolution cfg env = true := by
  by_cases hs : skipResolution cfg env = true <;>
    simp [ensure_bold_sidecar, hs]

/-- Helper: on the resolution path the outcome is a write of the resolved
object, for some derived duration value. -/
theorem outcome_written (cfg : BoldCfg) (env : BoldEnv)
    (h : skipResolution cfg env = false) :
    ∃ tr, (ensure_bold_sidecar cfg env).2 =
      .written (resolveMeta (templateLoad cfg env).2 (srcLoad env).2
        tr cfg.task) := by
  by_cases htr : trResolve cfg (templateLoad cfg env).2 (srcLoad env).2 =
      none ∧ cfg.ensureTr = true
  · exact ⟨env.headerTr, by simp [ensure_bold_sidecar, h, htr]⟩
  · exact ⟨trResolve cfg (templateLoad cfg env).2 (srcLoad env).2,
      by simp [ensure_bold_sidecar, h, htr]⟩

/-- Lookup in the resolved object, away from the two derived keys, is the
lookup of the per-file sidecar updated over the templates. -/
theorem dlookup_resolveMeta (tplMeta s : JObj) (tr : Option ℚ)
    (task : Option String) (k : String)
    (hs : (s.map Prod.fst).Nodup)
    (hk1 : k ≠ "RepetitionTime") (hk2 : k ≠ "TaskName") :
    dlookup (resolveMeta tplMeta s tr task) k =
      (dlookup s k).or (dlookup tplMeta k) := by
  unfold resolveMeta
  cases tr with
  | none =>
    cases task with
    | none => simp [dlookup_dupdate _ _ _ hs]
    | some t =>
      by_cases ht : hasKey (dupdate tplMeta s) "TaskName" = true <;>
        simp [ht, dlookup_dinsert, hk2, dlookup_dupdate _ _ _ hs]
  | some q =>
    cases task with
    | none => simp [dlookup_dinsert, hk1, dlookup_dupdate _ _ _ hs]
    | some t =>
      by_cases ht :
          hasKey (dinsert (dupdate tplMeta s) "RepetitionTime"
            (.num (round6 q))) "TaskName" = true <;>
        simp [ht, dlookup_dinsert, hk1, hk2, dlookup_dupdate _ _ _ hs]

/-- C4.  Sidecar skip invariant: when the destination sidecar exists,
overwrite is not requested, and its content parses to a JSON object that
contains the RepetitionTime field, ensure_bold_sidecar returns
immediately: the outcome is the skip (the existing file is left
untouched) and the effect list is empty, so no template fetch, per-file
sidecar fetch, content fetch, or header extraction is performed —
whatever the templates, per-file sidecar or header would have said. -/
theorem sidecar_skip_invariant (cfg : BoldCfg) (env : BoldEnv) (o : JObj)
    (hov : cfg.overwrite = false) (hex : env.destExists = true)
    (hobj : env.destContent = .obj o)
    (hrt : hasKey o "RepetitionTime" = true) :
    ensure_bold_sidecar cfg env = ([], .skipped) := by
  have hs : skipResolution cfg env = true := by
    simp [skipResolution, hov, hex, hobj, existingDict, hrt]
  simp [ensure_bold_sidecar, hs]

/-- Witness for C4: a concrete call where the templates and the source
sidecar disagree with the existing destination sidecar, which is still
skipped untouched with no external access. -/
theorem sidecar_skip_invariant_witness :
    ensure_bold_sidecar
      ⟨false, true, some "rest", none⟩
      ⟨true, .obj [("RepetitionTime", .num 2)],
       [("RepetitionTime", .num 3)], [], [], true,
       .obj [("RepetitionTime", .num 4)], some 5⟩ = ([], .skipped) :=
  sidecar_skip_invariant _ _ [("RepetitionTime", .num 2)]
    rfl rfl rfl (by decide)

/-- Predicate actually implemented by lines 329-335 for an existing,
non-overwritten destination sidecar: unparseable content is replaced by
the empty dict (so it skips exactly when the derived-duration option is
off), non-object JSON never skips, and an object skips when the option
is off or the object carries RepetitionTime. -/
def implementedSkip (cfg : BoldCfg) (env : BoldEnv) : Bool :=
  match env.destContent with
  | .obj o => !cfg.ensureTr || hasKey o "RepetitionTime"
  | .parseError => !cfg.ensureTr
  | .nonObject => false

/-- C10 (amended).  Implicit skip predicate of ensure_bold_sidecar: when
the destination sidecar exists and overwrite is not requested, resolution
is skipped if and only if either the existing content parses to a JSON
object and (the derived-duration option is disabled or the object
contains the RepetitionTime key), or the content fails to parse at all
(it is read as an empty object) and the derived-duration option is
disabled.  Valid JSON that is not an object is always re-resolved. -/
theorem sidecar_skip_predicate (cfg : BoldCfg) (env : BoldEnv)
    (hex : env.destExists = true) (hov : cfg.overwrite = false) :
    (ensure_bold_sidecar cfg env).2 = .skipped ↔
      implementedSkip cfg env = true := by
  rw [outcome_skipped_iff]
  cases hc : env.destContent <;>
    simp [skipResolution, implementedSkip, hex, hov, existingDict, hc,
      hasKey, dlookup]

/-- Witness for C10: with the derived-duration option disabled, an
existing object sidecar lacking RepetitionTime is skipped. -/
theorem sidecar_skip_predicate_witness :
    (ensure_bold_sidecar ⟨false, false, none, none⟩
      ⟨true, .obj [("EchoTime", .num 1)], [], [], [], false,
       .parseError, none⟩).2 = .skipped ↔
      implementedSkip ⟨false, false, none, none⟩
        ⟨true, .obj [("EchoTime", .num 1)], [], [], [], false,
         .parseError, none⟩ = true :=
  sidecar_skip_predicate _ _ rfl rfl

/-- Formalisation of claim C10 as frozen: for an existing destination
sidecar without overwrite, resolution is skipped iff the existing content
parses to a JSON object and (the derived-duration option is disabled or
the object contains RepetitionTime). -/
def c10ClaimStatement (cfg : BoldCfg) (env : BoldEnv) : Prop :=
  (ensure_bold_sidecar cfg env).2 = .skipped ↔
    ∃ o, env.destContent = .obj o ∧
      (cfg.ensureTr = false ∨ hasKey o "RepetitionTime" = true)

/-- Counterexample to C10 as frozen: with the derived-duration option
disabled, a destination sidecar whose content is not valid JSON is
nevertheless skipped (json.loads failure is caught and replaced by the
empty dict, which passes the isinstance test), while the claim says such
a sidecar is re-resolved and overwritten. -/
theorem sidecar_skip_predicate_counterexample :
    ¬ c10ClaimStatement ⟨false, false, none, none⟩
      ⟨true, .parseError, [], [], [], false, .parseError, none⟩ := by
  intro h
  have hskip : (ensure_bold_sidecar ⟨false, false, none, none⟩
      ⟨true, .parseError, [], [], [], false, .parseError, none⟩).2 =
      .skipped := rfl
  obtain ⟨o, hobj, -⟩ := h.mp hskip
  exact ParseOutcome.noConfusion hobj

/-- Environment of the C1 merge-precedence scenario: coarse task template
(a:1, b:2), finer task+acq template (b:3, c:4), per-file source sidecar
(c:5, d:6), no destination sidecar yet, no usable header duration. -/
def c1env : BoldEnv :=
  ⟨false, .parseError,
   [("a", .num 1), ("b", .num 2)],
   [("b", .num 3), ("c", .num 4)],
   [], true,
   .obj [("c", .num 5), ("d", .num 6)], none⟩

/-- Flags of the C1 scenario: template mode (no derived duration), no
overwrite, task and acquisition labels parsed from the filename. -/
def c1cfg : BoldCfg := ⟨false, false, some "rest", some "a8"⟩

/-- Counterexample to C1 as frozen: in the claimed scenario the written
object is not the bare three-way merge (a:1, b:3, c:5, d:6) — the
resolver appends the derived TaskName field (line 422-423), so the
resolved object carries a TaskName key which the claimed object lacks. -/
theorem resolver_merge_counterexample :
    (ensure_bold_sidecar c1cfg c1env).2 =
      .written [("a", .num 1), ("b", .num 3), ("c", .num 5),
                ("d", .num 6), ("TaskName", .str "rest")] ∧
    hasKey [("a", JVal.num 1), ("b", JVal.num 3), ("c", JVal.num 5),
            ("d", JVal.num 6), ("TaskName", JVal.str "rest")]
      "TaskName" = true := by
  exact ⟨rfl, by decide⟩

/-- C1 (amended).  Sidecar merge precedence: on the resolution path with
both a task and an acquisition label and a parsed per-file sidecar, the
resolved object restricted to any key other than the derived fields
RepetitionTime and TaskName is the left-to-right merge of the coarse
task-level template, then the finer task+acquisition template, then the
per-file source sidecar, later sources overriding earlier keys; in the
scenario of the claim the resolved object is (a:1, b:3, c:5, d:6)
together with the derived TaskName entry. -/
theorem resolver_merge_precedence (cfg : BoldCfg) (env : BoldEnv)
    (t a : String) (s : JObj) (k : String)
    (htask : cfg.task = some t) (hacq : cfg.acq = some a)
    (hsrc : env.srcContent = .obj s) (htrk : env.srcTracked = true)
    (hdest : env.destExists = false)
    (hcn : ((env.coarseT).map Prod.fst).Nodup)
    (hfn : ((env.finerT).map Prod.fst).Nodup)
    (hsn : (s.map Prod.fst).Nodup)
    (hk1 : k ≠ "RepetitionTime") (hk2 : k ≠ "TaskName") :
    ∃ m, (ensure_bold_sidecar cfg env).2 = .written m ∧
      dlookup m k =
        (dlookup s k).or
          ((dlookup env.finerT k).or (dlookup env.coarseT k)) := by
  have hskip : skipResolution cfg env = false := by
    simp [skipResolution, hdest]
  have htpl : (templateLoad cfg env).2 =
      dupdate (dupdate [] env.coarseT) env.finerT := by
    simp [templateLoad, htask, hacq]
  have hsrcm : (srcLoad env).2 = s := by
    simp [srcLoad, htrk, hsrc]
  obtain ⟨tr, hout⟩ := outcome_written cfg env hskip
  refine ⟨_, hout, ?_⟩
  rw [dlookup_resolveMeta _ _ _ _ _ (by rw [hsrcm]; exact hsn) hk1 hk2]
  rw [htpl, hsrcm, dlookup_dupdate _ _ _ hfn,
    dlookup_dupdate _ _ _ hcn]
  simp [dlookup]

/-- Witness for C1 (amended): the claimed scenario itself, checked on the
key b, where the finer template overrides the coarse one. -/
theorem resolver_merge_precedence_witness :
    ∃ m, (ensure_bold_sidecar c1cfg c1env).2 = .written m ∧
      dlookup m "b" =
        (dlookup [("c", JVal.num 5), ("d", JVal.num 6)] "b").or
          ((dlookup c1env.finerT "b").or (dlookup c1env.coarseT "b")) :=
  resolver_merge_precedence c1cfg c1env "rest" "a8"
    [("c", .num 5), ("d", .num 6)] "b"
    rfl rfl rfl rfl rfl (by decide) (by decide) (by decide)
    (by decide) (by decide)

/-! ## Entity mapper (build_abide, lines 535-539)

Line 539 builds the synthetic participant label from an f-string,
`f"{version_tag}s{site_index[site]}x{orig_id}"`.  Strings are modelled as
lists of natural-number code points (115 is s, 120 is x); the decimal
rendering of the site index mirrors Python str() on a non-negative int:
canonical decimal digits, no sign, no leading zeros. -/

/-- Decimal digit code points of a natural number, most significant
first, as Python str() renders a non-negative int. -/
def toDec (n : ℕ) : List ℕ :=
  if h : n < 10 then [48 + n] else toDec (n / 10) ++ [48 + n % 10]
  termination_by n
  decreasing_by exact Nat.div_lt_self (by omega) (by omega)

/-- Line 539: the synthetic id version_tag + s + site_index + x + orig_id. -/
def new_id (version_tag : List ℕ) (site_index : ℕ) (orig_id : List ℕ) :
    List ℕ :=
  version_tag ++ (115 :: toDec site_index) ++ (120 :: orig_id)

theorem toDec_ne_nil (n : ℕ) : toDec n ≠ [] := by
  unfold toDec
  split <;> simp

theorem toDec_length_pos (n : ℕ) : 1 ≤ (toDec n).length := by
  have := toDec_ne_nil n
  cases h : toDec n with
  | nil => exact absurd h this
  | cons a l => simp

/-- Every rendered digit is one of the code points 48-57; in particular
never the separator x (code point 120). -/
theorem toDec_digits (n : ℕ) : ∀ c ∈ toDec n, 48 ≤ c ∧ c ≤ 57 := by
  induction n using Nat.strong_induction_on with
  | _ n ih =>
    unfold toDec
    split
    · intro c hc
      simp at hc
      omega
    · intro c hc
      rw [List.mem_append] at hc
      rcases hc with hc | hc
      · exact ih (n / 10) (Nat.div_lt_self (by omega) (by omega)) c hc
      · simp at hc
        omega

theorem toDec_no_x (n : ℕ) : ∀ c ∈ toDec n, c ≠ 120 := by
  intro c hc
  have := toDec_digits n c hc
  omega

theorem toDec_of_lt {n : ℕ} (h : n < 10) : toDec n = [48 + n] := by
  conv_lhs => rw [toDec]
  simp [h]

theorem toDec_of_ge {n : ℕ} (h : ¬ n < 10) :
    toDec n = toDec (n / 10) ++ [48 + n % 10] := by
  conv_lhs => rw [toDec]
  simp [h]

/-- Python str() is injective on non-negative ints. -/
theorem toDec_injective (m : ℕ) : ∀ n, toDec m = toDec n → m = n := by
  induction m using Nat.strong_induction_on with
  | _ m ih =>
    intro n h
    by_cases hm : m < 10 <;> by_cases hn : n < 10
    · rw [toDec_of_lt hm, toDec_of_lt hn] at h
      simp at h
      omega
    · rw [toDec_of_lt hm, toDec_of_ge hn] at h
      have hl := congrArg List.length h
      simp only [List.length_append, List.length_cons, List.length_nil] at hl
      have := toDec_length_pos (n / 10)
      omega
    · rw [toDec_of_ge hm, toDec_of_lt hn] at h
      have hl := congrArg List.length h
      simp only [List.length_append, List.length_cons, List.length_nil] at hl
      have := toDec_length_pos (m / 10)
      omega
    · rw [toDec_of_ge hm, toDec_of_ge hn] at h
      have h' := congrArg List.reverse h
      simp at h'
      have ht : toDec (m / 10) = toDec (n / 10) := by
        have := congrArg List.reverse h'.2
        simpa using this
      have hq : m / 10 = n / 10 :=
        ih (m / 10) (Nat.div_lt_self (by omega) (by omega)) (n / 10) ht
      have hd := h'.1
      omega

/-- Splitting at the first occurrence of the separator: if the two prefix
lists avoid the separator, equal concatenations force equal parts. -/
theorem sep_split (sep : ℕ) (d₁ d₂ o₁ o₂ : List ℕ)
    (h₁ : ∀ c ∈ d₁, c ≠ sep) (h₂ : ∀ c ∈ d₂, c ≠ sep)
    (h : d₁ ++ sep :: o₁ = d₂ ++ sep :: o₂) : d₁ = d₂ ∧ o₁ = o₂ := by
  induction d₁ generalizing d₂ with
  | nil =>
    cases d₂ with
    | nil => simpa using h
    | cons b l =>
      simp at h
      exact absurd h.1.symm (h₂ b (by simp))
  | cons a l ih =>
    cases d₂ with
    | nil =>
      simp at h
      exact absurd h.1 (h₁ a (by simp))
    | cons b l' =>
      simp at h
      obtain ⟨hab, hrest⟩ := h
      have := ih l' (fun c hc => h₁ c (List.mem_cons_of_mem a hc))
        (fun c hc => h₂ c (List.mem_cons_of_mem b hc)) hrest
      exact ⟨by rw [hab, this.1], this.2⟩

/-- C3.  Entity-mapper injectivity: the synthetic participant id is
version_tag + s + site_index + x + original_id (line 539), and within one
dataset build (fixed version tag, site index rendered as a non-negative
decimal integer) two distinct (site_index, original_id) pairs always get
distinct synthetic ids: the decimal digits contain no x, so the first x
after the digits splits the id unambiguously. -/
theorem entity_mapper_injective (version_tag : List ℕ) (i₁ i₂ : ℕ)
    (o₁ o₂ : List ℕ) (hne : (i₁, o₁) ≠ (i₂, o₂)) :
    new_id version_tag i₁ o₁ ≠ new_id version_tag i₂ o₂ := by
  intro h
  unfold new_id at h
  rw [List.append_assoc, List.append_assoc] at h
  have h' := List.append_cancel_left h
  simp only [List.cons_append, List.cons.injEq, true_and] at h'
  have hsplit := sep_split 120 (toDec i₁) (toDec i₂) o₁ o₂
    (toDec_no_x i₁) (toDec_no_x i₂) (by simpa using h')
  exact hne (by simp [toDec_injective i₁ i₂ hsplit.1, hsplit.2])

/-- Witness for C3: site 0 and site 1 with the same original id 0050642
(digit code points) give different synthetic ids under version tag v1. -/
theorem entity_mapper_injective_witness :
    new_id [118, 49] 0 [48, 48, 53, 48, 54, 52, 50] ≠
      new_id [118, 49] 1 [48, 48, 53, 48, 54, 52, 50] :=
  entity_mapper_injective [118, 49] 0 1 _ _ (by decide)

/-! ## Content reference linker (build_abide, lines 569-582)

Per enumerated source file, after computing the destination path: if the
path already exists in the lexists sense (true also for dangling
symlinks) it is either a fatal tree-corruption error (a directory) or a
counted skip with no annex interaction; otherwise the source store is
queried for key and URLs, the key is installed at the destination, and
the URLs are registered. -/

/-- Filesystem state of the destination path. -/
inductive DestState where
  | absent
  | file
  | danglingSymlink
  | dir
  deriving DecidableEq

/-- os.path.lexists: true for anything present, including a dangling
symlink. -/
def lexists : DestState → Bool
  | .absent => false
  | _ => true

/-- Path.is_dir: true only for a (resolved) directory. -/
def is_dir : DestState → Bool
  | .dir => true
  | _ => false

/-- Store interactions of the non-skip branch (lines 578-581). -/
inductive LinkEffect where
  | whereisQuery
  | fromkeyInstall
  | registerUrls
  deriving DecidableEq

/-- Shallow embedding of the per-file linker step (lines 569-582): the
updated (created, skipped) counters and the store interactions, or the
fatal error raised when the existing destination is a directory (which
propagates out of build_abide and aborts the build).  In dry-run mode
the non-skip branch only prints, but still counts the file as created. -/
def link_step (dest : DestState) (dryRun : Bool) (created skipped : ℕ) :
    Except String (ℕ × ℕ × List LinkEffect) :=
  if lexists dest then
    if is_dir dest then .error "Destination exists and is a directory"
    else .ok (created, skipped + 1, [])
  else if dryRun then .ok (created + 1, skipped, [])
  else .ok (created + 1, skipped, [.whereisQuery, .fromkeyInstall, .registerUrls])

/-- C5.  Content-reference-linker idempotence and collision handling: for
any counter values and either run mode, an existing destination file or
dangling symlink yields no source-store query and no reference
installation, and increments exactly the skipped counter; an existing
destination directory makes the step fail with the fatal error that
aborts the whole build. -/
theorem link_step_idempotence (dryRun : Bool) (created skipped : ℕ) :
    link_step .file dryRun created skipped =
      .ok (created, skipped + 1, []) ∧
    link_step .danglingSymlink dryRun created skipped =
      .ok (created, skipped + 1, []) ∧
    link_step .dir dryRun created skipped =
      .error "Destination exists and is a directory" := by
  refine ⟨rfl, rfl, rfl⟩

/-! ## nifti_tr_seconds (lines 90-125)

The header is a list of byte values.  struct.unpack with the chosen
endianness assembles machine words from the bytes; the 32-bit float at
byte offset 92 (the 5th element of the 8-float pixdim vector unpacked
from bytes 76-108) is decoded from its IEEE-754 binary32 bit pattern to
an exact rational.  The one modelling boundary: bit patterns with
exponent field 255 (infinities and NaNs) have no rational value, so the
embedding returns none for them; every theorem below stays inside the
finite-float fragment.  Python float arithmetic is modelled as exact
rational arithmetic. -/

/-- Little-endian word from bytes, first byte least significant. -/
def bytesToNatLE (bs : List ℕ) : ℕ :=
  bs.foldr (fun b acc => b + 256 * acc) 0

/-- Big-endian word from bytes, first byte most significant. -/
def bytesToNatBE (bs : List ℕ) : ℕ :=
  bs.foldl (fun acc b => acc * 256 + b) 0

/-- struct.unpack "i": reinterpret a 32-bit word as a signed integer. -/
def toInt32 (n : ℕ) : ℤ :=
  if n < 2 ^ 31 then (n : ℤ) else (n : ℤ) - 2 ^ 32

/-- Byte slice hdr[off:off+len]. -/
def readBytes (hdr : List ℕ) (off len : ℕ) : List ℕ :=
  (hdr.drop off).take len

/-- Single byte hdr[i] (Python indexing of a bytes object). -/
def byteAt (hdr : List ℕ) (i : ℕ) : ℕ :=
  hdr.getD i 0

inductive ByteOrder where
  | le
  | be
  deriving DecidableEq

/-- 32-bit word at a byte offset under the given byte order. -/
def word32At (hdr : List ℕ) (off : ℕ) : ByteOrder → ℕ
  | .le => bytesToNatLE (readBytes hdr off 4)
  | .be => bytesToNatBE (readBytes hdr off 4)

/-- Lines 105-112: test sizeof_hdr as a little-endian signed int against
348, then as big-endian; unknown otherwise. -/
def detectByteOrder (hdr : List ℕ) : Option ByteOrder :=
  if toInt32 (word32At hdr 0 .le) = 348 then some .le
  else if toInt32 (word32At hdr 0 .be) = 348 then some .be
  else none

/-- Exact rational value of a finite IEEE-754 binary32 bit pattern
(sign bit 31, exponent bits 23-30, mantissa bits 0-22). -/
def decodeF32val (w : ℕ) : ℚ :=
  let sign := w / 2 ^ 31 % 2
  let expo := w / 2 ^ 23 % 2 ^ 8
  let mant := w % 2 ^ 23
  let m : ℕ := if expo = 0 then mant else 2 ^ 23 + mant
  let sh : ℕ := (if expo = 0 then 1 else expo) - 1
  let mag : ℚ := ((m * 2 ^ sh : ℕ) : ℚ) / ((2 : ℚ) ^ 149)
  if sign = 0 then mag else -mag

/-- Finite-float decoder: none on exponent field 255 (inf/NaN). -/
def decodeF32 (w : ℕ) : Option ℚ :=
  if w / 2 ^ 23 % 2 ^ 8 = 255 then none else some (decodeF32val w)

/-- Line 121: the unit-scale factor chosen by the time-unit bits. -/
def trFactor (code : ℕ) : ℚ :=
  if code = 8 then 1
  else if code = 16 then 1 / 1000
  else if code = 24 then 1 / 1000000
  else 1

/-- Failure modes of the extractor (lines 103, 111, 124). -/
inductive NiftiErr where
  | shortHeader
  | notNifti
  | invalidTr
  deriving DecidableEq

/-- Shallow embedding of nifti_tr_seconds (lines 90-125) on the 348-byte
header content: length check, byte-order detection, pixdim[4] at byte
offset 92 under the detected order, time-unit bits 3-5 of the byte at
offset 123, scale, and the strict-positivity check.  Returns none only
when the raw duration bit pattern is not a finite float (outside the
rational model). -/
def nifti_tr_seconds (hdr : List ℕ) : Option (Except NiftiErr ℚ) :=
  if hdr.length ≠ 348 then some (.error .shortHeader)
  else
    match detectByteOrder hdr with
    | none => some (.error .notNifti)
    | some e =>
      match decodeF32 (word32At hdr 92 e) with
      | none => none
      | some tr =>
        let trSec := tr * trFactor (byteAt hdr 123 &&& 0x38)
        if trSec ≤ 0 then some (.error .invalidTr)
        else some (.ok trSec)

/-- C2.  For every 348-byte header with a recognizable byte order whose
raw duration is a finite float, nifti_tr_seconds returns raw * factor,
the raw duration being the 5th element of the 8-float vector at byte
offset 76 (bytes 92-96) under the detected order, and the factor being
selected by the time-unit code, bits 3-5 of the byte at offset 123
(value AND 0x38): code 8 gives 1, code 16 gives 1/1000, code 24 gives
1/1000000, any other code gives 1; it fails with the invalid-duration
error exactly when the product is not strictly positive. -/
theorem nifti_tr_spec (hdr : List ℕ) (e : ByteOrder) (tr : ℚ)
    (hlen : hdr.length = 348)
    (hord : detectByteOrder hdr = some e)
    (hdec : decodeF32 (word32At hdr 92 e) = some tr) :
    (trFactor (byteAt hdr 123 &&& 0x38) =
      if byteAt hdr 123 &&& 0x38 = 8 then 1
      else if byteAt hdr 123 &&& 0x38 = 16 then 1 / 1000
      else if byteAt hdr 123 &&& 0x38 = 24 then 1 / 1000000
      else 1) ∧
    (0 < tr * trFactor (byteAt hdr 123 &&& 0x38) →
      nifti_tr_seconds hdr =
        some (.ok (tr * trFactor (byteAt hdr 123 &&& 0x38)))) ∧
    (¬ 0 < tr * trFactor (byteAt hdr 123 &&& 0x38) →
      nifti_tr_seconds hdr = some (.error .invalidTr)) := by
  refine ⟨rfl, ?_, ?_⟩
  · intro hpos
    simp [nifti_tr_seconds, hlen, hord, hdec, not_le.mpr hpos]
  · intro hpos
    simp [nifti_tr_seconds, hlen, hord, hdec, le_of_not_lt hpos]

/-! ## Synthetic headers for the extractor properties -/

/-- Little-endian byte rendering of a 32-bit word. -/
def leBytes4 (w : ℕ) : List ℕ :=
  [w % 256, w / 256 % 256, w / 2 ^ 16 % 256, w / 2 ^ 24 % 256]

/-- Big-endian byte rendering of a 32-bit word. -/
def beBytes4 (w : ℕ) : List ℕ :=
  [w / 2 ^ 24 % 256, w / 2 ^ 16 % 256, w / 256 % 256, w % 256]

/-- 348-byte header skeleton: sizeof_hdr bytes at offset 0, the pixdim[4]
float bytes at offset 92, the xyzt_units byte at offset 123, zero
elsewhere. -/
def mkNiftiHeader (first4 floatBytes : List ℕ) (u : ℕ) : List ℕ :=
  first4 ++ (List.replicate 88 0 ++ (floatBytes ++
    (List.replicate 27 0 ++ (u :: List.replicate 224 0))))

/-- Little-endian encoding of the logical content (w, u). -/
def mkHeaderLE (w u : ℕ) : List ℕ :=
  mkNiftiHeader (leBytes4 348) (leBytes4 w) u

/-- Big-endian encoding of the same logical content. -/
def mkHeaderBE (w u : ℕ) : List ℕ :=
  mkNiftiHeader (beBytes4 348) (beBytes4 w) u

theorem mkNiftiHeader_length (f4 fb : List ℕ) (u : ℕ)
    (h4 : f4.length = 4) (hfb : fb.length = 4) :
    (mkNiftiHeader f4 fb u).length = 348 := by
  simp only [mkNiftiHeader, List.length_append, List.length_replicate,
    List.length_cons, h4, hfb]

theorem mkNiftiHeader_first4 (f4 fb : List ℕ) (u : ℕ)
    (h4 : f4.length = 4) :
    readBytes (mkNiftiHeader f4 fb u) 0 4 = f4 := by
  unfold readBytes mkNiftiHeader
  rw [List.drop_zero, ← h4, List.take_left]

theorem mkNiftiHeader_float (f4 fb : List ℕ) (u : ℕ)
    (h4 : f4.length = 4) (hfb : fb.length = 4) :
    readBytes (mkNiftiHeader f4 fb u) 92 4 = fb := by
  unfold readBytes mkNiftiHeader
  have hassoc :
      f4 ++ (List.replicate 88 0 ++ (fb ++
        (List.replicate 27 0 ++ (u :: List.replicate 224 0)))) =
      (f4 ++ List.replicate 88 (0 : ℕ)) ++
        (fb ++ (List.replicate 27 0 ++ (u :: List.replicate 224 0))) := by
    simp only [List.append_assoc]
  have h92 : (f4 ++ List.replicate 88 (0 : ℕ)).length = 92 := by
    simp only [List.length_append, List.length_replicate, h4]
  rw [hassoc, ← h92, List.drop_left, ← hfb, List.take_left]

theorem mkNiftiHeader_unit (f4 fb : List ℕ) (u : ℕ)
    (h4 : f4.length = 4) (hfb : fb.length = 4) :
    byteAt (mkNiftiHeader f4 fb u) 123 = u := by
  unfold byteAt mkNiftiHeader
  have hassoc :
      f4 ++ (List.replicate 88 0 ++ (fb ++
        (List.replicate 27 0 ++ (u :: List.replicate 224 0)))) =
      (f4 ++ List.replicate 88 0 ++ fb ++ List.replicate 27 (0 : ℕ)) ++
        (u :: List.replicate 224 0) := by
    simp only [List.append_assoc]
  have hp : (f4 ++ List.replicate 88 0 ++ fb ++
      List.replicate 27 (0 : ℕ)).length = 123 := by
    simp only [List.length_append, List.length_replicate, h4, hfb]
  rw [hassoc, List.getD_append_right _ _ _ _ hp.le, hp, Nat.sub_self]
  exact List.getD_cons_zero

theorem leBytes4_length (w : ℕ) : (leBytes4 w).length = 4 := by
  simp [leBytes4]

theorem beBytes4_length (w : ℕ) : (beBytes4 w).length = 4 := by
  simp [beBytes4]

theorem bytesToNatLE_leBytes4 (w : ℕ) (hw : w < 2 ^ 32) :
    bytesToNatLE (leBytes4 w) = w := by
  simp only [bytesToNatLE, leBytes4, List.foldr_cons, List.foldr_nil]
  omega

theorem bytesToNatBE_beBytes4 (w : ℕ) (hw : w < 2 ^ 32) :
    bytesToNatBE (beBytes4 w) = w := by
  simp only [bytesToNatBE, beBytes4, List.foldl_cons, List.foldl_nil]
  omega

theorem detect_mkHeaderLE (w u : ℕ) :
    detectByteOrder (mkHeaderLE w u) = some .le := by
  have h : readBytes (mkHeaderLE w u) 0 4 = leBytes4 348 :=
    mkNiftiHeader_first4 _ _ _ (leBytes4_length 348)
  unfold detectByteOrder
  simp only [word32At, h]
  rw [if_pos (by decide)]

theorem detect_mkHeaderBE (w u : ℕ) :
    detectByteOrder (mkHeaderBE w u) = some .be := by
  have h : readBytes (mkHeaderBE w u) 0 4 = beBytes4 348 :=
    mkNiftiHeader_first4 _ _ _ (beBytes4_length 348)
  unfold detectByteOrder
  simp only [word32At, h]
  rw [if_neg (by decide), if_pos (by decide)]

theorem word32_mkHeaderLE (w u : ℕ) (hw : w < 2 ^ 32) :
    word32At (mkHeaderLE w u) 92 .le = w := by
  show bytesToNatLE (readBytes (mkHeaderLE w u) 92 4) = w
  unfold mkHeaderLE
  rw [mkNiftiHeader_float _ _ _ (leBytes4_length 348) (leBytes4_length w)]
  exact bytesToNatLE_leBytes4 w hw

theorem word32_mkHeaderBE (w u : ℕ) (hw : w < 2 ^ 32) :
    word32At (mkHeaderBE w u) 92 .be = w := by
  show bytesToNatBE (readBytes (mkHeaderBE w u) 92 4) = w
  unfold mkHeaderBE
  rw [mkNiftiHeader_float _ _ _ (beBytes4_length 348) (beBytes4_length w)]
  exact bytesToNatBE_beBytes4 w hw

/-- C8.  Byte-order independence: encoding the same logical header
content — a raw-duration float bit pattern and a unit-code byte — as a
valid 348-byte little-endian header and as the corresponding big-endian
header (each with its first 4-byte integer equal to 348 in its own byte
order) yields identical results from nifti_tr_seconds, errors included. -/
theorem nifti_byte_order_independence (w u : ℕ) (hw : w < 2 ^ 32) :
    nifti_tr_seconds (mkHeaderLE w u) = nifti_tr_seconds (mkHeaderBE w u) := by
  have hlenL : (mkHeaderLE w u).length = 348 :=
    mkNiftiHeader_length _ _ _ (leBytes4_length 348) (leBytes4_length w)
  have hlenR : (mkHeaderBE w u).length = 348 :=
    mkNiftiHeader_length _ _ _ (beBytes4_length 348) (beBytes4_length w)
  have hbL : byteAt (mkHeaderLE w u) 123 = u :=
    mkNiftiHeader_unit _ _ _ (leBytes4_length 348) (leBytes4_length w)
  have hbR : byteAt (mkHeaderBE w u) 123 = u :=
    mkNiftiHeader_unit _ _ _ (beBytes4_length 348) (beBytes4_length w)
  unfold nifti_tr_seconds
  simp only [hlenL, hlenR, detect_mkHeaderLE, detect_mkHeaderBE,
    word32_mkHeaderLE w u hw, word32_mkHeaderBE w u hw, hbL, hbR]

/-- Witness for C8: the float bit pattern of 2.0 with unit code 24
(microseconds) decodes identically from both encodings. -/
theorem nifti_byte_order_independence_witness :
    nifti_tr_seconds (mkHeaderLE (2 ^ 30) 24) =
      nifti_tr_seconds (mkHeaderBE (2 ^ 30) 24) :=
  nifti_byte_order_independence (2 ^ 30) 24 (by norm_num)

/-- Witness for C2: the binary32 pattern of 2.0 (bit pattern 2 to the
power 30) with unit code 16 (milliseconds) yields 2/1000 seconds. -/
theorem nifti_tr_spec_witness :
    nifti_tr_seconds (mkHeaderLE (2 ^ 30) 16) = some (.ok (1 / 500)) := by
  have hand : (16 : ℕ) &&& 56 = 16 := by decide
  have hb : byteAt (mkHeaderLE (2 ^ 30) 16) 123 = 16 :=
    mkNiftiHeader_unit _ _ _ (leBytes4_length 348) (leBytes4_length (2 ^ 30))
  have hw : word32At (mkHeaderLE (2 ^ 30) 16) 92 .le = 2 ^ 30 :=
    word32_mkHeaderLE (2 ^ 30) 16 (by norm_num)
  have hdec : decodeF32 (word32At (mkHeaderLE (2 ^ 30) 16) 92 .le) =
      some 2 := by
    rw [hw]
    norm_num [decodeF32, decodeF32val]
  have hlen : (mkHeaderLE (2 ^ 30) 16).length = 348 :=
    mkNiftiHeader_length _ _ _ (leBytes4_length 348) (leBytes4_length (2 ^ 30))
  have h := (nifti_tr_spec (mkHeaderLE (2 ^ 30) 16) .le 2 hlen
    (detect_mkHeaderLE (2 ^ 30) 16) hdec).2.1
    (by rw [hb, hand]; norm_num [trFactor])
  rw [h, hb, hand]
  norm_num [trFactor]

/-! ## materialize_metadata, size filter (lines 850-868)

For each path of the chunk confirmed fetched: measure the size; a path
over the configured ceiling goes to too_large_keep_annexed and never to
the promotion batch; only paths at or under the ceiling are queued for
unannex.  Paths are canonical repo-relative strings. -/

/-- Megabyte size of a byte count, the float division of line 860 in
exact rational arithmetic. -/
def sizeMb (n : ℕ) : ℚ :=
  (n : ℚ) / (1024 * 1024)

/-- Accumulator of the filter loop: the promotion batch, the oversize
report list, and the get_failures dict. -/
structure SizeFilterOut where
  to_unannex : List String
  too_large_keep_annexed : List String
  get_failures : List (String × String)
  deriving DecidableEq

/-- One iteration of the loop of lines 851-868 over a path of the chunk.
The size oracle returns none when stat raises FileNotFoundError. -/
def sizeFilterStep (ok : List String) (dryRun : Bool)
    (size : String → Option ℕ) (maxMb : ℚ) (st : SizeFilterOut)
    (rel : String) : SizeFilterOut :=
  if rel ∈ ok then
    if dryRun then
      ⟨st.to_unannex ++ [rel], st.too_large_keep_annexed, st.get_failures⟩
    else
      match size rel with
      | none =>
        ⟨st.to_unannex, st.too_large_keep_annexed,
         dsetdefault st.get_failures rel
           "content not present after successful get"⟩
      | some n =>
        if maxMb < sizeMb n then
          ⟨st.to_unannex, st.too_large_keep_annexed ++ [rel],
           st.get_failures⟩
        else
          ⟨st.to_unannex ++ [rel], st.too_large_keep_annexed,
           st.get_failures⟩
  else st

/-- Lines 850-868: the whole size-and-unannex filter over one chunk,
starting from empty batch lists and the get_failures accumulated so far. -/
def materialize_size_filter (chunk ok : List String) (dryRun : Bool)
    (size : String → Option ℕ) (maxMb : ℚ)
    (fails0 : List (String × String)) : SizeFilterOut :=
  chunk.foldl (sizeFilterStep ok dryRun size maxMb) ⟨[], [], fails0⟩

theorem size_filter_to_unannex_sound (ok : List String)
    (size : String → Option ℕ) (maxMb : ℚ) (chunk : List String) :
    ∀ st : SizeFilterOut, ∀ p,
      p ∈ (chunk.foldl (sizeFilterStep ok false size maxMb) st).to_unannex →
      p ∈ st.to_unannex ∨
        (p ∈ ok ∧ ∃ m, size p = some m ∧ sizeMb m ≤ maxMb) := by
  induction chunk with
  | nil => intro st p hp; exact Or.inl hp
  | cons e rest ih =>
    intro st p hp
    rw [List.foldl_cons] at hp
    rcases ih _ p hp with hin | hgood
    · by_cases he : e ∈ ok
      · cases hsz : size e with
        | none =>
          simp [sizeFilterStep, he, hsz] at hin
          exact Or.inl hin
        | some n =>
          by_cases hcmp : maxMb < sizeMb n
          · simp [sizeFilterStep, he, hsz, hcmp] at hin
            exact Or.inl hin
          · simp [sizeFilterStep, he, hsz, hcmp] at hin
            rcases hin with hin | rfl
            · exact Or.inl hin
            · exact Or.inr ⟨he, n, hsz, le_of_not_lt hcmp⟩
      · simp [sizeFilterStep, he] at hin
        exact Or.inl hin
    · exact Or.inr hgood

theorem size_filter_too_large_mono (ok : List String)
    (size : String → Option ℕ) (maxMb : ℚ) (chunk : List String) :
    ∀ st : SizeFilterOut, ∀ p, p ∈ st.too_large_keep_annexed →
      p ∈ (chunk.foldl (sizeFilterStep ok false size maxMb)
        st).too_large_keep_annexed := by
  induction chunk with
  | nil => intro st p hp; exact hp
  | cons e rest ih =>
    intro st p hp
    rw [List.foldl_cons]
    refine ih _ p ?_
    by_cases he : e ∈ ok
    · cases hsz : size e with
      | none => simpa [sizeFilterStep, he, hsz] using hp
      | some n =>
        by_cases hcmp : maxMb < sizeMb n <;>
          simp [sizeFilterStep, he, hsz, hcmp, hp]
    · simpa [sizeFilterStep, he] using hp

theorem size_filter_too_large_reached (ok : List String)
    (size : String → Option ℕ) (maxMb : ℚ) (rel : String) (n : ℕ)
    (hok : rel ∈ ok) (hsz : size rel = some n) (hbig : maxMb < sizeMb n) :
    ∀ chunk : List String, ∀ st : SizeFilterOut, rel ∈ chunk →
      rel ∈ (chunk.foldl (sizeFilterStep ok false size maxMb)
        st).too_large_keep_annexed := by
  intro chunk
  induction chunk with
  | nil => intro st hmem; cases hmem
  | cons e rest ih =>
    intro st hmem
    rw [List.foldl_cons]
    rcases List.mem_cons.mp hmem with rfl | hrest
    · refine size_filter_too_large_mono ok size maxMb rest _ rel ?_
      simp [sizeFilterStep, hok, hsz, hbig]
    · exact ih _ hrest

/-- C6.  Size-ceiling safety in materialize_metadata: in a real (non
dry-run) pass, a successfully fetched candidate of the chunk whose
measured size exceeds the max_mb ceiling lands in the
too_large_keep_annexed report list and never in the to_unannex promotion
batch (so it stays store-backed); moreover every path of the promotion
batch was confirmed fetched and measured at or under the ceiling. -/
theorem materializer_size_ceiling (chunk ok : List String)
    (size : String → Option ℕ) (maxMb : ℚ)
    (fails0 : List (String × String)) (rel : String) (n : ℕ)
    (hmem : rel ∈ chunk) (hok : rel ∈ ok) (hsz : size rel = some n)
    (hbig : maxMb < sizeMb n) :
    rel ∈ (materialize_size_filter chunk ok false size maxMb
      fails0).too_large_keep_annexed ∧
    rel ∉ (materialize_size_filter chunk ok false size maxMb
      fails0).to_unannex ∧
    ∀ p ∈ (materialize_size_filter chunk ok false size maxMb
      fails0).to_unannex,
      p ∈ ok ∧ ∃ m, size p = some m ∧ sizeMb m ≤ maxMb := by
  refine ⟨size_filter_too_large_reached ok size maxMb rel n
    hok hsz hbig chunk _ hmem, ?_, ?_⟩
  · intro hin
    rcases size_filter_to_unannex_sound ok size maxMb chunk _ rel hin with
      h | ⟨-, m, hm, hle⟩
    · simp at h
    · rw [hsz] at hm
      cases hm
      exact absurd hbig (not_lt.mpr hle)
  · intro p hp
    rcases size_filter_to_unannex_sound ok size maxMb chunk _ p hp with
      h | hgood
    · simp at h
    · exact hgood

/-- Witness for C6: a 100 MiB JSON candidate against the default 50 MB
ceiling is reported too large and excluded from promotion. -/
theorem materializer_size_ceiling_witness :
    "sub-x/big.json" ∈ (materialize_size_filter ["sub-x/big.json"]
      ["sub-x/big.json"] false (fun _ => some 104857600) 50
      []).too_large_keep_annexed ∧
    "sub-x/big.json" ∉ (materialize_size_filter ["sub-x/big.json"]
      ["sub-x/big.json"] false (fun _ => some 104857600) 50
      []).to_unannex ∧
    ∀ p ∈ (materialize_size_filter ["sub-x/big.json"] ["sub-x/big.json"]
      false (fun _ => some 104857600) 50 []).to_unannex,
      p ∈ ["sub-x/big.json"] ∧
        ∃ m, (fun _ : String => some 104857600) p = some m ∧
          sizeMb m ≤ 50 :=
  materializer_size_ceiling ["sub-x/big.json"] ["sub-x/big.json"]
    (fun _ => some 104857600) 50 [] "sub-x/big.json" 104857600
    (by simp) (by simp) rfl (by norm_num [sizeMb])

/-! ## write_participants_tsv (lines 639-652)

Rows are sorted by participant_id with Python sorted (a stable sort), a
fixed header line is prepended, and the whole table is written in one
write_text call (overwriting, never appending).  Text is modelled as
lists of code points: 9 is tab, 10 is newline. -/

/-- Code points of a Lean string literal. -/
def ascii (s : String) : List ℕ :=
  s.data.map Char.toNat

/-- One participants.tsv row tuple of line 545-547. -/
structure PRow where
  participant_id : List ℕ
  source_dataset : List ℕ
  source_site : List ℕ
  site_index : ℕ
  source_subject_id : List ℕ
  deriving DecidableEq

/-- Key order of line 645: sorted(participants, key=lambda r: r[0]). -/
def rowLe (a b : PRow) : Prop :=
  a.participant_id ≤ b.participant_id

instance : DecidableRel rowLe := fun a b =>
  inferInstanceAs (Decidable (a.participant_id ≤ b.participant_id))

instance : IsTotal PRow rowLe :=
  ⟨fun a b => le_total a.participant_id b.participant_id⟩

instance : IsTrans PRow rowLe :=
  ⟨fun _ _ _ h1 h2 => le_trans h1 h2⟩

/-- Strict version of the row order, used to show sorted outputs with
distinct keys are unique. -/
def rowLt (a b : PRow) : Prop :=
  a.participant_id < b.participant_id

instance : IsAntisymm PRow rowLt :=
  ⟨fun _ _ h h2 => (lt_asymm h h2).elim⟩

/-- Columns of one emitted row (line 648): str() of the site index is
its decimal rendering. -/
def rowCells (r : PRow) : List (List ℕ) :=
  [r.participant_id, r.source_dataset, r.source_site,
   toDec r.site_index, r.source_subject_id]

/-- The sorted row list of line 645.  Python sorted is a stable sort;
insertion sort into an already-placed tail is stable in the same way. -/
def sortedRows (participants : List PRow) : List PRow :=
  List.insertionSort rowLe participants

/-- Shallow embedding of write_participants_tsv (lines 639-652): the
exact byte content written (overwriting) to participants.tsv. -/
def write_participants_tsv (participants : List PRow) : List ℕ :=
  let header : List ℕ := List.intercalate [9]
    (["participant_id", "source_dataset", "source_site", "site_index",
      "source_subject_id"].map ascii)
  let lines : List (List ℕ) :=
    header :: (sortedRows participants).map (fun r =>
      List.intercalate [9] (rowCells r))
  List.intercalate [10] lines ++ [10]

theorem sorted_lt_of_nodup (l : List PRow)
    (hs : List.Sorted rowLe l)
    (hn : (l.map PRow.participant_id).Nodup) : List.Sorted rowLt l := by
  have hne : l.Pairwise
      (fun a b => a.participant_id ≠ b.participant_id) :=
    (List.pairwise_map).mp hn
  exact (hs.and hne).imp fun hab => lt_of_le_of_ne hab.1 hab.2

/-- C9 (amended).  Manifest determinism: write_participants_tsv always
emits the fixed header row followed by one row per participant tuple,
stably sorted by participant_id, and fully overwrites the file each run;
whenever the participant ids are pairwise distinct (as the id scheme
guarantees within one build), every permutation of the input list
produces the identical table. -/
theorem manifest_determinism (l₁ l₂ : List PRow)
    (hperm : l₁.Perm l₂)
    (hids : (l₁.map PRow.participant_id).Nodup) :
    write_participants_tsv l₁ = write_participants_tsv l₂ ∧
    List.Sorted rowLe (sortedRows l₁) ∧
    (sortedRows l₁).Perm l₁ := by
  have hs₁ : List.Sorted rowLe (sortedRows l₁) :=
    List.sorted_insertionSort rowLe l₁
  have hs₂ : List.Sorted rowLe (sortedRows l₂) :=
    List.sorted_insertionSort rowLe l₂
  have hp₁ : (sortedRows l₁).Perm l₁ := List.perm_insertionSort rowLe l₁
  have hp₂ : (sortedRows l₂).Perm l₂ := List.perm_insertionSort rowLe l₂
  have hpp : (sortedRows l₁).Perm (sortedRows l₂) :=
    (hp₁.trans hperm).trans hp₂.symm
  have hn₁ : ((sortedRows l₁).map PRow.participant_id).Nodup :=
    ((hp₁.map PRow.participant_id).nodup_iff).mpr hids
  have hn₂ : ((sortedRows l₂).map PRow.participant_id).Nodup :=
    ((hpp.map PRow.participant_id).nodup_iff).mp hn₁
  have hsort : sortedRows l₁ = sortedRows l₂ :=
    List.eq_of_perm_of_sorted hpp
      (sorted_lt_of_nodup _ hs₁ hn₁) (sorted_lt_of_nodup _ hs₂ hn₂)
  refine ⟨?_, hs₁, hp₁⟩
  unfold write_participants_tsv
  rw [hsort]

/-- Rows of the C9 scenarios. -/
def prowA : PRow := ⟨ascii "sub-v1s0x1", ascii "abide1", ascii "A", 0,
  ascii "1"⟩

def prowB : PRow := ⟨ascii "sub-v2s0x1", ascii "abide2", ascii "A", 0,
  ascii "1"⟩

/-- Duplicate-id variants of the C9 counterexample. -/
def prowDup1 : PRow := ⟨ascii "sub-v1s0x1", ascii "abide1", ascii "A", 0,
  ascii "1"⟩

def prowDup2 : PRow := ⟨ascii "sub-v1s0x1", ascii "abide2", ascii "B", 1,
  ascii "2"⟩

/-- Counterexample to C9 as frozen: Python sorted is stable, so two
tuples sharing the participant_id keep their input order; permuting an
input list containing such a duplicate id changes the written table, so
the table is not identical for every permutation of every input list. -/
theorem manifest_determinism_counterexample :
    ([prowDup1, prowDup2].Perm [prowDup2, prowDup1]) ∧
    write_participants_tsv [prowDup1, prowDup2] ≠
      write_participants_tsv [prowDup2, prowDup1] :=
  ⟨List.Perm.swap _ _ _, by decide⟩

/-- Witness for C9 (amended): two distinct-id rows in either order give
the same table. -/
theorem manifest_determinism_witness :
    write_participants_tsv [prowA, prowB] =
      write_participants_tsv [prowB, prowA] ∧
    List.Sorted rowLe (sortedRows [prowA, prowB]) ∧
    (sortedRows [prowA, prowB]).Perm [prowA, prowB] :=
  manifest_determinism [prowA, prowB] [prowB, prowA]
    (List.Perm.swap _ _ _) (by decide)

/-! ## run_annex_json (lines 720-756) and the get-batch reconciliation
(lines 811-848)

The subprocess stdout is a list of lines, each already classified by what
json.loads does to it: blank (skipped), non-JSON (kept as a parse
error), JSON but not an object (silently dropped), or an object carrying
an optional file path, a success field that is the JSON literal true,
the literal false, absent, or some non-boolean value, and the resolved
error-message string.  Paths are compared as canonical repo-relative
strings; Path(f.lstrip("./")) is modelled by stripping every leading dot
or slash character. -/

/-- Value of the success field of one JSON record. -/
inductive SVal where
  | strue
  | sfalse
  | absent
  | nonBool
  deriving DecidableEq

/-- One parsed JSON record of the git-annex output. -/
structure GetRecord where
  file : Option String
  success : SVal
  errMsg : String
  deriving DecidableEq

/-- One stdout line as json.loads sees it. -/
inductive AnnexLine where
  | blank
  | nonJson (s : String)
  | jsonNonDict
  | jsonRecord (r : GetRecord)
  deriving DecidableEq

/-- One iteration of the stdout loop of lines 745-755. -/
def annexLineStep (st : List GetRecord × List String) (l : AnnexLine) :
    List GetRecord × List String :=
  match l with
  | .blank => st
  | .nonJson s => (st.1, st.2 ++ [s])
  | .jsonNonDict => st
  | .jsonRecord r => (st.1 ++ [r], st.2)

/-- Lines 743-756 of run_annex_json: collect dict records in order and
keep non-JSON lines as parse errors; blank and non-dict lines vanish. -/
def run_annex_json (lines : List AnnexLine) :
    List GetRecord × List String :=
  lines.foldl annexLineStep ([], [])

/-- The record carried by a line, when it is a JSON object. -/
def recOfLine : AnnexLine → Option GetRecord
  | .jsonRecord r => some r
  | _ => none

/-- The parse-error text carried by a line, when it is not JSON. -/
def errOfLine : AnnexLine → Option String
  | .nonJson s => some s
  | _ => none

theorem run_annex_json_fold (lines : List AnnexLine) :
    ∀ accR accE,
      lines.foldl annexLineStep (accR, accE) =
        (accR ++ lines.filterMap recOfLine,
         accE ++ lines.filterMap errOfLine) := by
  induction lines with
  | nil => intro accR accE; simp [recOfLine, errOfLine]
  | cons l rest ih =>
    intro accR accE
    cases l <;>
      simp [annexLineStep, recOfLine, errOfLine, ih, List.filterMap_cons]

/-- run_annex_json keeps exactly the JSON-object lines as records and
exactly the non-JSON lines as parse errors, in order. -/
theorem run_annex_json_spec (lines : List AnnexLine) :
    run_annex_json lines =
      (lines.filterMap recOfLine, lines.filterMap errOfLine) := by
  simpa using run_annex_json_fold lines [] []

/-- Python str.lstrip with the character set dot-slash. -/
def lstripDotSlash (s : String) : String :=
  String.mk (s.data.dropWhile (fun c => c == '.' || c == '/'))

/-- Lines 818-821: the usable path of a record — skip records whose file
field is missing, not a string, or empty; normalise the rest. -/
def recFile (r : GetRecord) : Option String :=
  match r.file with
  | none => none
  | some f => if f = "" then none else some (lstripDotSlash f)

/-- Python set.add on the ok set (membership is all that matters). -/
def saddL (l : List String) (x : String) : List String :=
  if x ∈ l then l else l ++ [x]

/-- State threaded through the reconciliation: the ok set and the
get_failures dict. -/
abbrev RState := List String × List (String × String)

/-- Lines 816-825: one record of the loop — success true adds the path
to ok, success false stores its error message, anything else is left to
the content-presence fallback. -/
def processGetStep (st : RState) (r : GetRecord) : RState :=
  match recFile r with
  | none => st
  | some rel =>
    match r.success with
    | .strue => (saddL st.1 rel, st.2)
    | .sfalse => (st.1, dinsert st.2 rel r.errMsg)
    | _ => st

/-- The whole record loop of lines 816-825. -/
def processGetRecords (records : List GetRecord) : RState :=
  records.foldl processGetStep ([], [])

/-- Line 843-846: generic reason recorded when no record was emitted and
the content is absent. -/
def genericGetMsg : String :=
  "content not present after git-annex get (and no JSON record was emitted)"

/-- Lines 837-848: one chunk path of the fallback loop — skip paths
already decided, treat present content as implicit success, record a
generic failure otherwise. -/
def fallbackStep (present : String → Bool) (st : RState) (p : String) :
    RState :=
  if p ∈ st.1 ∨ (dlookup st.2 p).isSome then st
  else if present p then (saddL st.1 p, st.2)
  else (st.1, dsetdefault st.2 p genericGetMsg)

/-- Lines 811-848 for one batch: parse records were already extracted;
dry-run short-circuits to all-ok, a non-zero exit with no records at all
marks the whole chunk failed, and otherwise the fallback loop reconciles
every undecided path by content presence. -/
def reconcile_get_batch (chunk : List String) (records : List GetRecord)
    (rc : ℤ) (present : String → Bool) (dryRun : Bool) : RState :=
  let st0 := processGetRecords records
  if dryRun then (chunk, st0.2)
  else if rc ≠ 0 ∧ records = [] then
    (st0.1, chunk.foldl (fun fs q => dsetdefault fs q
      ("git-annex get returned " ++ toString rc ++ " (no JSON output)"))
      st0.2)
  else chunk.foldl (fallbackStep present) st0

theorem mem_saddL (l : List String) (x y : String) :
    y ∈ saddL l x ↔ y ∈ l ∨ y = x := by
  unfold saddL
  by_cases h : x ∈ l
  · simp only [h, if_true]
    constructor
    · exact Or.inl
    · rintro (hy | rfl)
      · exact hy
      · exact h
  · simp [h]

theorem dlookup_append {α : Type} (a b : List (String × α)) (k : String) :
    dlookup (a ++ b) k = (dlookup a k).or (dlookup b k) := by
  induction a with
  | nil => simp [dlookup]
  | cons p rest ih =>
    by_cases h : p.1 = k <;> simp [dlookup, h, ih]

theorem dlookup_dsetdefault {α : Type} (a : List (String × α))
    (k k' : String) (v : α) :
    dlookup (dsetdefault a k v) k' =
      (dlookup a k').or (if k' = k then some v else none) := by
  unfold dsetdefault
  by_cases h : (dlookup a k).isSome
  · rw [if_pos h]
    by_cases hk : k' = k
    · subst hk
      obtain ⟨s, hs⟩ := Option.isSome_iff_exists.mp h
      simp [hs]
    · simp [hk]
  · rw [if_neg h]
    rw [dlookup_append]
    by_cases hk : k' = k
    · simp [dlookup, hk]
    · have hk' : ¬ k = k' := fun hh => hk hh.symm
      simp [dlookup, hk, hk']

theorem dlookup_dinsert_self {α : Type} (a : List (String × α))
    (k : String) (v : α) : dlookup (dinsert a k v) k = some v := by
  rw [dlookup_dinsert]
  simp

/-- A record that is not a decisive record for p (wrong path, no usable
path, or a non-boolean success) leaves the p-facts of the loop state
unchanged. -/
theorem processGetStep_preserve (st : RState) (r : GetRecord) (p : String)
    (h : recFile r = some p →
      r.success ≠ .strue ∧ r.success ≠ .sfalse) :
    (p ∈ (processGetStep st r).1 ↔ p ∈ st.1) ∧
    dlookup (processGetStep st r).2 p = dlookup st.2 p := by
  unfold processGetStep
  cases hrf : recFile r with
  | none => exact ⟨Iff.rfl, rfl⟩
  | some rel =>
    by_cases hrel : rel = p
    · subst hrel
      obtain ⟨h1, h2⟩ := h hrf
      cases hs : r.success
      · exact absurd hs h1
      · exact absurd hs h2
      · exact ⟨Iff.rfl, rfl⟩
      · exact ⟨Iff.rfl, rfl⟩
    · have hne : p ≠ rel := fun hh => hrel hh.symm
      cases hs : r.success
      · constructor
        · simp [mem_saddL, hne]
        · rfl
      · constructor
        · exact Iff.rfl
        · rw [dlookup_dinsert]
          simp [hne]
      · exact ⟨Iff.rfl, rfl⟩
      · exact ⟨Iff.rfl, rfl⟩

theorem processFold_preserve (p : String) :
    ∀ (records : List GetRecord) (st : RState),
      (∀ r ∈ records, recFile r = some p →
        r.success ≠ .strue ∧ r.success ≠ .sfalse) →
      (p ∈ (records.foldl processGetStep st).1 ↔ p ∈ st.1) ∧
      dlookup (records.foldl processGetStep st).2 p = dlookup st.2 p := by
  intro records
  induction records with
  | nil => intro st _; exact ⟨Iff.rfl, rfl⟩
  | cons e rest ih =>
    intro st hall
    rw [List.foldl_cons]
    have hstep := processGetStep_preserve st e p
      (hall e (List.mem_cons_self e rest))
    have hrest := ih (processGetStep st e)
      (fun r hr => hall r (List.mem_cons_of_mem e hr))
    exact ⟨hrest.1.trans hstep.1, hrest.2.trans hstep.2⟩

/-- When the record list mentions p at most once, the list splits at the
mentioning record, with no mention on either side. -/
theorem filter_unique_split (p : String) :
    ∀ (records : List GetRecord) (r : GetRecord), r ∈ records →
      recFile r = some p →
      (records.filter (fun x => recFile x == some p)).length ≤ 1 →
      ∃ l₁ l₂, records = l₁ ++ r :: l₂ ∧
        (∀ x ∈ l₁, ¬ recFile x = some p) ∧
        (∀ x ∈ l₂, ¬ recFile x = some p) := by
  intro records
  induction records with
  | nil => intro r hr; cases hr
  | cons e rest ih =>
    intro r hr hrf hlen
    rcases List.mem_cons.mp hr with rfl | hr'
    · have hpe : (recFile r == some p) = true := by simp [hrf]
      rw [List.filter_cons, if_pos hpe] at hlen
      simp only [List.length_cons] at hlen
      have hnil : rest.filter (fun x => recFile x == some p) = [] := by
        have : (rest.filter (fun x => recFile x == some p)).length = 0 := by
          omega
        exact List.length_eq_zero.mp this
      refine ⟨[], rest, rfl, by simp, ?_⟩
      intro x hx hxf
      have : x ∈ rest.filter (fun y => recFile y == some p) :=
        List.mem_filter.mpr ⟨hx, by simp [hxf]⟩
      rw [hnil] at this
      cases this
    · by_cases hpe : (recFile e == some p) = true
      · exfalso
        rw [List.filter_cons, if_pos hpe] at hlen
        have : r ∈ rest.filter (fun y => recFile y == some p) :=
          List.mem_filter.mpr ⟨hr', by simp [hrf]⟩
        have hpos : 1 ≤ (rest.filter
            (fun y => recFile y == some p)).length :=
          List.length_pos.mpr (List.ne_nil_of_mem this)
        simp only [List.length_cons] at hlen
        omega
      · rw [List.filter_cons, if_neg hpe] at hlen
        obtain ⟨l₁, l₂, heq, h₁, h₂⟩ := ih r hr' hrf hlen
        refine ⟨e :: l₁, l₂, by rw [heq]; rfl, ?_, h₂⟩
        intro x hx
        rcases List.mem_cons.mp hx with rfl | hx'
        · intro hc
          exact hpe (by simp [hc])
        · exact h₁ x hx'

/-- Outcome of the record loop when the unique decisive record declares
success. -/
theorem processGetRecords_strue (records : List GetRecord) (p : String)
    (r : GetRecord) (hr : r ∈ records) (hrf : recFile r = some p)
    (hs : r.success = .strue)
    (huniq : (records.filter
      (fun x => recFile x == some p)).length ≤ 1) :
    p ∈ (processGetRecords records).1 ∧
    dlookup (processGetRecords records).2 p = none := by
  obtain ⟨l₁, l₂, rfl, h₁, h₂⟩ := filter_unique_split p records r hr hrf huniq
  unfold processGetRecords
  rw [List.foldl_append, List.foldl_cons]
  have hpre := processFold_preserve p l₁ ([], [])
    (fun x hx hxf => absurd hxf (h₁ x hx))
  set st₁ := l₁.foldl processGetStep ([], []) with hst₁
  have hstep : processGetStep st₁ r = (saddL st₁.1 p, st₁.2) := by
    unfold processGetStep
    rw [hrf, hs]
  have hpost := processFold_preserve p l₂ (processGetStep st₁ r)
    (fun x hx hxf => absurd hxf (h₂ x hx))
  constructor
  · rw [hpost.1, hstep]
    simp [mem_saddL]
  · rw [hpost.2, hstep]
    exact hpre.2

/-- Outcome of the record loop when the unique decisive record declares
failure: its message is stored and p is not in the ok set. -/
theorem processGetRecords_sfalse (records : List GetRecord) (p : String)
    (r : GetRecord) (hr : r ∈ records) (hrf : recFile r = some p)
    (hs : r.success = .sfalse)
    (huniq : (records.filter
      (fun x => recFile x == some p)).length ≤ 1) :
    dlookup (processGetRecords records).2 p = some r.errMsg ∧
    p ∉ (processGetRecords records).1 := by
  obtain ⟨l₁, l₂, rfl, h₁, h₂⟩ := filter_unique_split p records r hr hrf huniq
  unfold processGetRecords
  rw [List.foldl_append, List.foldl_cons]
  have hpre := processFold_preserve p l₁ ([], [])
    (fun x hx hxf => absurd hxf (h₁ x hx))
  set st₁ := l₁.foldl processGetStep ([], []) with hst₁
  have hstep : processGetStep st₁ r = (st₁.1, dinsert st₁.2 p r.errMsg) := by
    unfold processGetStep
    rw [hrf, hs]
  have hpost := processFold_preserve p l₂ (processGetStep st₁ r)
    (fun x hx hxf => absurd hxf (h₂ x hx))
  constructor
  · rw [hpost.2, hstep]
    exact dlookup_dinsert_self st₁.2 p r.errMsg
  · rw [hpost.1, hstep]
    intro hc
    exact (by simpa [dlookup] using hpre.1.mp hc : False)

/-- Outcome of the record loop when no decisive record mentions p. -/
theorem processGetRecords_none (records : List GetRecord) (p : String)
    (hnone : ∀ r ∈ records, recFile r = some p →
      r.success ≠ .strue ∧ r.success ≠ .sfalse) :
    p ∉ (processGetRecords records).1 ∧
    dlookup (processGetRecords records).2 p = none := by
  have h := processFold_preserve p records ([], []) hnone
  unfold processGetRecords
  constructor
  · intro hc
    exact (by simpa [dlookup] using h.1.mp hc : False)
  · exact h.2

/-- Fallback loop: a path already in the ok set stays there and its
failure entry (none) is untouched. -/
theorem fallback_preserve_ok (present : String → Bool) (p : String) :
    ∀ (l : List String) (st : RState), p ∈ st.1 →
      p ∈ (l.foldl (fallbackStep present) st).1 ∧
      dlookup (l.foldl (fallbackStep present) st).2 p =
        dlookup st.2 p := by
  intro l
  induction l with
  | nil => intro st hp; exact ⟨hp, rfl⟩
  | cons e rest ih =>
    intro st hp
    rw [List.foldl_cons]
    have hstep : p ∈ (fallbackStep present st e).1 ∧
        dlookup (fallbackStep present st e).2 p = dlookup st.2 p := by
      unfold fallbackStep
      by_cases hskip : e ∈ st.1 ∨ (dlookup st.2 e).isSome = true
      · simp only [if_pos hskip]
        exact ⟨hp, trivial⟩
      · by_cases hpres : present e = true
        · simp only [if_neg hskip, if_pos hpres]
          exact ⟨(mem_saddL st.1 e p).mpr (Or.inl hp), trivial⟩
        · simp only [if_neg hskip, if_neg hpres]
          have hne : p ≠ e := fun hh => hskip (Or.inl (hh ▸ hp))
          refine ⟨hp, ?_⟩
          rw [dlookup_dsetdefault]
          simp [hne]
    have := ih _ hstep.1
    exact ⟨this.1, this.2.trans hstep.2⟩

/-- Fallback loop: a path with a recorded failure keeps exactly that
failure and never enters the ok set. -/
theorem fallback_preserve_fail (present : String → Bool) (p : String)
    (m : String) :
    ∀ (l : List String) (st : RState), dlookup st.2 p = some m →
      dlookup (l.foldl (fallbackStep present) st).2 p = some m ∧
      (p ∈ (l.foldl (fallbackStep present) st).1 ↔ p ∈ st.1) := by
  intro l
  induction l with
  | nil => intro st hm; exact ⟨hm, Iff.rfl⟩
  | cons e rest ih =>
    intro st hm
    rw [List.foldl_cons]
    have hstep : dlookup (fallbackStep present st e).2 p = some m ∧
        (p ∈ (fallbackStep present st e).1 ↔ p ∈ st.1) := by
      unfold fallbackStep
      by_cases hskip : e ∈ st.1 ∨ (dlookup st.2 e).isSome = true
      · simp only [if_pos hskip]
        exact ⟨hm, trivial⟩
      · have hne : p ≠ e := by
          intro hh
          exact hskip (Or.inr (by rw [← hh, hm]; rfl))
        by_cases hpres : present e = true
        · simp only [if_neg hskip, if_pos hpres]
          refine ⟨hm, ?_⟩
          rw [mem_saddL]
          exact ⟨fun hh => hh.resolve_right hne, Or.inl⟩
        · simp only [if_neg hskip, if_neg hpres]
          refine ⟨?_, trivial⟩
          rw [dlookup_dsetdefault, hm]
          simp [hne]
    have := ih _ hstep.1
    exact ⟨this.1, this.2.trans hstep.2⟩

/-- Fallback loop: an undecided path of the chunk is classified by
content presence — implicit success when present, generic failure when
absent. -/
theorem fallback_classify (present : String → Bool) (p : String) :
    ∀ (l : List String) (st : RState), p ∈ l → p ∉ st.1 →
      dlookup st.2 p = none →
      (present p = true →
        p ∈ (l.foldl (fallbackStep present) st).1 ∧
        dlookup (l.foldl (fallbackStep present) st).2 p = none) ∧
      (present p = false →
        dlookup (l.foldl (fallbackStep present) st).2 p =
          some genericGetMsg ∧
        p ∉ (l.foldl (fallbackStep present) st).1) := by
  intro l
  induction l with
  | nil => intro st hmem; cases hmem
  | cons e rest ih =>
    intro st hmem hniok hnifail
    rw [List.foldl_cons]
    by_cases hpe : p = e
    · subst hpe
      have hskip : ¬ (p ∈ st.1 ∨ (dlookup st.2 p).isSome = true) := by
        rintro (hc | hc)
        · exact hniok hc
        · rw [hnifail] at hc
          cases hc
      constructor
      · intro hpres
        have hstep : fallbackStep present st p = (saddL st.1 p, st.2) := by
          unfold fallbackStep
          rw [if_neg hskip, if_pos hpres]
        rw [hstep]
        have := fallback_preserve_ok present p rest (saddL st.1 p, st.2)
          ((mem_saddL st.1 p p).mpr (Or.inr rfl))
        exact ⟨this.1, this.2.trans hnifail⟩
      · intro hpres
        have hstep : fallbackStep present st p =
            (st.1, dsetdefault st.2 p genericGetMsg) := by
          unfold fallbackStep
          rw [if_neg hskip, if_neg (by simp [hpres])]
        rw [hstep]
        have hfail : dlookup (dsetdefault st.2 p genericGetMsg) p =
            some genericGetMsg := by
          rw [dlookup_dsetdefault, hnifail]
          simp
        have := fallback_preserve_fail present p genericGetMsg rest
          (st.1, dsetdefault st.2 p genericGetMsg) hfail
        exact ⟨this.1, fun hc => hniok (this.2.mp hc)⟩
    · have hrest : p ∈ rest := by
        rcases List.mem_cons.mp hmem with hc | hc
        · exact absurd hc hpe
        · exact hc
      have hpres0 : p ∉ (fallbackStep present st e).1 ∧
          dlookup (fallbackStep present st e).2 p = none := by
        unfold fallbackStep
        by_cases hskip : e ∈ st.1 ∨ (dlookup st.2 e).isSome = true
        · simp only [if_pos hskip]
          exact ⟨hniok, hnifail⟩
        · by_cases hpres : present e = true
          · simp only [if_neg hskip, if_pos hpres]
            refine ⟨?_, hnifail⟩
            rw [mem_saddL]
            rintro (hc | hc)
            · exact hniok hc
            · exact hpe hc
          · simp only [if_neg hskip, if_neg hpres]
            refine ⟨hniok, ?_⟩
            rw [dlookup_dsetdefault, hnifail]
            simp [hpe]
      exact ih _ hrest hpres0.1 hpres0.2

/-- The reconciliation partition over parsed records: provided the fetch
exited zero or produced at least one record, every chunk path with at
most one record mentioning it ends in exactly one of the four states. -/
theorem reconcile_partition (chunk : List String)
    (records : List GetRecord) (rc : ℤ) (present : String → Bool)
    (p : String) (hp : p ∈ chunk)
    (hbranch : rc = 0 ∨ records ≠ [])
    (huniq : (records.filter
      (fun x => recFile x == some p)).length ≤ 1) :
    ((∃ r ∈ records, recFile r = some p ∧ r.success = .strue) →
      p ∈ (reconcile_get_batch chunk records rc present false).1 ∧
      dlookup (reconcile_get_batch chunk records rc present false).2 p =
        none) ∧
    (∀ r ∈ records, recFile r = some p → r.success = .sfalse →
      dlookup (reconcile_get_batch chunk records rc present false).2 p =
        some r.errMsg ∧
      p ∉ (reconcile_get_batch chunk records rc present false).1) ∧
    ((∀ r ∈ records, recFile r = some p →
        r.success ≠ .strue ∧ r.success ≠ .sfalse) →
      (present p = true →
        p ∈ (reconcile_get_batch chunk records rc present false).1 ∧
        dlookup (reconcile_get_batch chunk records rc present
          false).2 p = none) ∧
      (present p = false →
        dlookup (reconcile_get_batch chunk records rc present
          false).2 p = some genericGetMsg ∧
        p ∉ (reconcile_get_batch chunk records rc present false).1)) := by
  have hno : ¬ (rc ≠ 0 ∧ records = []) := by
    rcases hbranch with h | h
    · exact fun hc => hc.1 h
    · exact fun hc => h hc.2
  have hred : reconcile_get_batch chunk records rc present false =
      chunk.foldl (fallbackStep present) (processGetRecords records) := by
    unfold reconcile_get_batch
    simp [hno]
  rw [hred]
  refine ⟨?_, ?_, ?_⟩
  · rintro ⟨r, hr, hrf, hs⟩
    obtain ⟨hok, hfail⟩ :=
      processGetRecords_strue records p r hr hrf hs huniq
    have := fallback_preserve_ok present p chunk _ hok
    exact ⟨this.1, this.2.trans hfail⟩
  · intro r hr hrf hs
    obtain ⟨hfail, hok⟩ :=
      processGetRecords_sfalse records p r hr hrf hs huniq
    have := fallback_preserve_fail present p r.errMsg chunk _ hfail
    exact ⟨this.1, fun hc => hok (this.2.mp hc)⟩
  · intro hnone
    obtain ⟨hok, hfail⟩ := processGetRecords_none records p hnone
    exact fallback_classify present p chunk _ hp hok hfail

/-- C7 (amended).  Batch-result reconciliation: provided the batch fetch
exited zero or emitted at least one JSON record, and emitted at most one
record for the path, every path in the batch ends in exactly one state —
declared success (a record with success true: the path is ok and not in
get_failures), declared failure (a record with success false: its error
message is in get_failures and the path is not ok), implicit success (no
decisive record — none at all, or none with a boolean success field —
and content present: the path is ok), or fallback failure (no decisive
record and content absent: get_failures carries the generic reason);
non-JSON output lines are ignored and appended, in order, to
parse_errors. -/
theorem batch_reconciliation (chunk : List String)
    (lines : List AnnexLine) (rc : ℤ) (present : String → Bool)
    (p : String) (hp : p ∈ chunk)
    (hbranch : rc = 0 ∨ (run_annex_json lines).1 ≠ [])
    (huniq : ((run_annex_json lines).1.filter
      (fun x => recFile x == some p)).length ≤ 1) :
    (run_annex_json lines).2 = lines.filterMap errOfLine ∧
    ((∃ r ∈ (run_annex_json lines).1,
        recFile r = some p ∧ r.success = .strue) →
      p ∈ (reconcile_get_batch chunk (run_annex_json lines).1 rc
        present false).1 ∧
      dlookup (reconcile_get_batch chunk (run_annex_json lines).1 rc
        present false).2 p = none) ∧
    (∀ r ∈ (run_annex_json lines).1, recFile r = some p →
        r.success = .sfalse →
      dlookup (reconcile_get_batch chunk (run_annex_json lines).1 rc
        present false).2 p = some r.errMsg ∧
      p ∉ (reconcile_get_batch chunk (run_annex_json lines).1 rc
        present false).1) ∧
    ((∀ r ∈ (run_annex_json lines).1, recFile r = some p →
        r.success ≠ .strue ∧ r.success ≠ .sfalse) →
      (present p = true →
        p ∈ (reconcile_get_batch chunk (run_annex_json lines).1 rc
          present false).1 ∧
        dlookup (reconcile_get_batch chunk (run_annex_json lines).1 rc
          present false).2 p = none) ∧
      (present p = false →
        dlookup (reconcile_get_batch chunk (run_annex_json lines).1 rc
          present false).2 p = some genericGetMsg ∧
        p ∉ (reconcile_get_batch chunk (run_annex_json lines).1 rc
          present false).1)) := by
  refine ⟨?_, reconcile_partition chunk (run_annex_json lines).1 rc
    present p hp hbranch huniq⟩
  rw [run_annex_json_spec]

/-- Witness inputs for the C7 theorem: a noisy non-JSON line, a success
record with a dot-slash-prefixed path, and an absent file. -/
def c7wlines : List AnnexLine :=
  [.nonJson "warming up", .jsonRecord ⟨some "./a.json", .strue, ""⟩]

/-- Witness for C7 (amended): the success record decides a.json, and the
noise line lands in parse_errors. -/
theorem batch_reconciliation_witness :
    (run_annex_json c7wlines).2 = c7wlines.filterMap errOfLine ∧
    ((∃ r ∈ (run_annex_json c7wlines).1,
        recFile r = some "a.json" ∧ r.success = .strue) →
      "a.json" ∈ (reconcile_get_batch ["a.json"] (run_annex_json
        c7wlines).1 0 (fun _ => false) false).1 ∧
      dlookup (reconcile_get_batch ["a.json"] (run_annex_json
        c7wlines).1 0 (fun _ => false) false).2 "a.json" = none) ∧
    (∀ r ∈ (run_annex_json c7wlines).1, recFile r = some "a.json" →
        r.success = .sfalse →
      dlookup (reconcile_get_batch ["a.json"] (run_annex_json
        c7wlines).1 0 (fun _ => false) false).2 "a.json" =
          some r.errMsg ∧
      "a.json" ∉ (reconcile_get_batch ["a.json"] (run_annex_json
        c7wlines).1 0 (fun _ => false) false).1) ∧
    ((∀ r ∈ (run_annex_json c7wlines).1, recFile r = some "a.json" →
        r.success ≠ .strue ∧ r.success ≠ .sfalse) →
      ((fun _ : String => false) "a.json" = true →
        "a.json" ∈ (reconcile_get_batch ["a.json"] (run_annex_json
          c7wlines).1 0 (fun _ => false) false).1 ∧
        dlookup (reconcile_get_batch ["a.json"] (run_annex_json
          c7wlines).1 0 (fun _ => false) false).2 "a.json" = none) ∧
      ((fun _ : String => false) "a.json" = false →
        dlookup (reconcile_get_batch ["a.json"] (run_annex_json
          c7wlines).1 0 (fun _ => false) false).2 "a.json" =
            some genericGetMsg ∧
        "a.json" ∉ (reconcile_get_batch ["a.json"] (run_annex_json
          c7wlines).1 0 (fun _ => false) false).1)) :=
  batch_reconciliation ["a.json"] c7wlines 0 (fun _ => false) "a.json"
    (by decide) (by decide) (by decide)

/-- Boolean state predicates, following the frozen wording of C7. -/
def hasRecordFor (records : List GetRecord) (p : String) : Bool :=
  records.any (fun r => recFile r == some p)

/-- State one of the claim: a parsed record with success true. -/
def declaredTrueB (records : List GetRecord) (p : String) : Bool :=
  records.any (fun r => recFile r == some p && r.success == SVal.strue)

/-- State two of the claim: a record with success false. -/
def declaredFalseB (records : List GetRecord) (p : String) : Bool :=
  records.any (fun r => recFile r == some p && r.success == SVal.sfalse)

/-- A record for p lacking a boolean success field. -/
def noSuccessFieldB (records : List GetRecord) (p : String) : Bool :=
  records.any (fun r => recFile r == some p &&
    (r.success == SVal.absent || r.success == SVal.nonBool))

/-- The four states of claim C7 as frozen, evaluated against the parsed
records, the content oracle, and the final get_failures dict: declared
success; declared failure recorded in get_failures; implicit success (no
record, or a record without a success field, but content present);
fallback failure (no record, content absent, generic reason recorded). -/
def c7ClaimStates (records : List GetRecord) (present : String → Bool)
    (fails : List (String × String)) (p : String) : List Bool :=
  [declaredTrueB records p,
   declaredFalseB records p && (dlookup fails p).isSome,
   (!hasRecordFor records p || noSuccessFieldB records p) && present p,
   !hasRecordFor records p && !present p &&
     (dlookup fails p == some genericGetMsg)]

/-- Counterexample to C7 as frozen: a path whose only record lacks the
success field and whose content is absent is recorded as a fallback
failure by the code, but it satisfies none of the claim's four states —
the claim's fallback-failure state requires that the path have no record
at all.  The path therefore does not end in exactly one of the four
listed states. -/
theorem batch_reconciliation_counterexample :
    reconcile_get_batch ["f.json"]
      [⟨some "f.json", .absent, ""⟩] 0 (fun _ => false) false =
      ([], [("f.json", genericGetMsg)]) ∧
    (c7ClaimStates [⟨some "f.json", .absent, ""⟩] (fun _ => false)
      (reconcile_get_batch ["f.json"] [⟨some "f.json", .absent, ""⟩] 0
        (fun _ => false) false).2 "f.json").count true = 0 := by
  decide

end AbideBuild
